import Mathlib

/-!
Verification of the RLcycle value-learning update engine.

The definitions below are shallow embeddings of the Python source:
* `preprocess_nstep` from `rlcycle/common/utils/common_utils.py`
* `soft_update` / `hard_update` from the same module (modelled as explicit
  state-passing over parameter lists, mirroring the in-place loop)
* `quantile_huber_loss`, `dist_projection` and the three bootstrap-target
  formulas from `rlcycle/dqn_base/loss.py`
* the n-step window handling and update gating of `DQNBaseAgent.train`
  from `rlcycle/dqn_base/agent.py`.

Scalars (rewards, discounts, parameters, probabilities) are modelled as
rationals; observations and actions as integers.
-/

namespace RLcycle

/-- One environment transition `(state, action, reward, next_state, done)`
as appended to the agent's `transition_queue`. -/
structure Transition where
  state : Int
  action : Int
  reward : ℚ
  next_state : Int
  done : Bool
  deriving Repr, DecidableEq

instance : Inhabited Transition := ⟨⟨0, 0, 0, 0, false⟩⟩

/-- One iteration of the loop body in `preprocess_nstep`: the loop variables
`state, action` are overwritten from the current transition and the
discounted accumulator is updated by `discounted = reward + gamma * discounted`. -/
def nstepFoldStep (γ : ℚ) (acc : Int × Int × ℚ) (t : Transition) : Int × Int × ℚ :=
  (t.state, t.action, t.reward + γ * acc.2.2)

/-- Embedding of `preprocess_nstep(n_step_queue, gamma)`: read
`last_state`/`done` from the newest queue element, then iterate over
`reversed(n_step_queue)` accumulating the discounted reward; on an empty
queue the Python indexing `n_step_queue[-1]` raises, modelled as `none`. -/
def preprocess_nstep (q : List Transition) (γ : ℚ) :
    Option (Int × Int × ℚ × Int × Bool) :=
  match q.getLast? with
  | none => none
  | some lastT =>
    let acc := q.reverse.foldl (nstepFoldStep γ) (0, 0, 0)
    some (acc.1, acc.2.1, acc.2.2, lastT.next_state, lastT.done)

/-- The walk described by the spec: from most-recent to oldest, accumulate
`discounted = reward_i + gamma * discounted` starting from `0`. -/
def walkDiscount (γ : ℚ) (q : List Transition) : ℚ :=
  q.foldr (fun t d => t.reward + γ * d) 0

lemma foldr_nstepFoldStep_snd (γ : ℚ) (q : List Transition) (init : Int × Int × ℚ) :
    (q.foldr (fun t acc => nstepFoldStep γ acc t) init).2.2 =
      q.foldr (fun t d => t.reward + γ * d) init.2.2 := by
  induction q with
  | nil => rfl
  | cons t ts ih =>
    simp only [nstepFoldStep] at ih ⊢
    simp only [List.foldr_cons]
    rw [ih]

lemma reverse_foldl_nstep (γ : ℚ) (q : List Transition) (init : Int × Int × ℚ) :
    q.reverse.foldl (nstepFoldStep γ) init =
      q.foldr (fun t acc => nstepFoldStep γ acc t) init := by
  rw [List.foldl_reverse]

lemma foldr_nstepFoldStep_head (γ : ℚ) (t : Transition) (ts : List Transition)
    (init : Int × Int × ℚ) :
    ((t :: ts).foldr (fun t acc => nstepFoldStep γ acc t) init).1 = t.state ∧
    ((t :: ts).foldr (fun t acc => nstepFoldStep γ acc t) init).2.1 = t.action := by
  simp [nstepFoldStep]

lemma preprocess_nstep_eq (q : List Transition) (γ : ℚ) (h : q ≠ []) :
    preprocess_nstep q γ =
      some ((q.head h).state, (q.head h).action, walkDiscount γ q,
        (q.getLast h).next_state, (q.getLast h).done) := by
  unfold preprocess_nstep
  rw [List.getLast?_eq_getLast q h]
  rw [reverse_foldl_nstep]
  cases q with
  | nil => exact absurd rfl h
  | cons t ts =>
    have h1 := foldr_nstepFoldStep_head γ t ts (0, 0, 0)
    have h2 := foldr_nstepFoldStep_snd γ (t :: ts) (0, 0, 0)
    simp only [walkDiscount, List.head_cons]
    rw [h1.1, h1.2, h2]

/-- `C3`: for every nonempty window, `preprocess_nstep` returns the oldest
element's `state`/`action`, the newest element's `next_state`/`done`, and the
reward obtained by walking the window from most-recent to oldest with
`discounted = reward_i + gamma * discounted` starting from `0`. -/
theorem preprocess_nstep_fields (q : List Transition) (γ : ℚ) (h : q ≠ []) :
    preprocess_nstep q γ =
      some ((q.head h).state, (q.head h).action, walkDiscount γ q,
        (q.getLast h).next_state, (q.getLast h).done) :=
  preprocess_nstep_eq q γ h

/-- Witness for `C3` on a concrete two-element window. -/
theorem preprocess_nstep_fields_witness :
    ([⟨1, 2, 5, 3, false⟩, ⟨3, 4, 7, 6, true⟩] : List Transition) ≠ [] ∧
    preprocess_nstep [⟨1, 2, 5, 3, false⟩, ⟨3, 4, 7, 6, true⟩] (1/2) =
      some ((1 : Int), (2 : Int),
        walkDiscount (1/2) [⟨1, 2, 5, 3, false⟩, ⟨3, 4, 7, 6, true⟩],
        (6 : Int), true) := by
  refine ⟨by simp, ?_⟩
  have h := preprocess_nstep_fields [⟨1, 2, 5, 3, false⟩, ⟨3, 4, 7, 6, true⟩]
    (1/2) (by simp)
  simpa using h

lemma walkDiscount_eq_sum (γ : ℚ) (q : List Transition) :
    walkDiscount γ q =
      ∑ i in Finset.range q.length, γ ^ i * (q.getD i default).reward := by
  induction q with
  | nil => simp [walkDiscount]
  | cons t ts ih =>
    have h1 : walkDiscount γ (t :: ts) = t.reward + γ * walkDiscount γ ts := rfl
    rw [h1, ih, List.length_cons, Finset.sum_range_succ']
    simp only [List.getD_cons_succ, List.getD_cons_zero, pow_zero, one_mul]
    have h2 : ∑ i in Finset.range ts.length, γ ^ (i + 1) * (ts.getD i default).reward
        = γ * ∑ i in Finset.range ts.length, γ ^ i * (ts.getD i default).reward := by
      rw [Finset.mul_sum]
      exact Finset.sum_congr rfl (fun i _ => by ring)
    rw [h2]
    ring

/-- Counterexample to `C2`: the window with rewards `[1, 2, 3]`
(oldest to newest) and `gamma = 9/10` aggregates to `5.23`, not the claimed
`3 + 0.9*2 + 0.81*1 = 5.61`: the code discounts the NEWEST reward most. -/
theorem preprocess_nstep_newest_weight_cex :
    (preprocess_nstep
        [⟨0, 0, 1, 0, false⟩, ⟨0, 0, 2, 0, false⟩, ⟨0, 0, 3, 0, false⟩]
        (9/10)).map (fun p => p.2.2.1) = some (523/100) ∧
      ((523 : ℚ)/100 ≠ 3 + (9/10) * 2 + (81/100) * 1) := by
  constructor
  · rw [preprocess_nstep_eq _ _ (by simp)]
    norm_num [walkDiscount]
  · norm_num

/-- `C2` (amended): the aggregated reward equals
`Σ_{i=0}^{n-1} gamma^i * r_i` with `r_0` the OLDEST reward, i.e. the oldest
reward carries weight `gamma^0` and the newest carries `gamma^(n-1)`. -/
theorem preprocess_nstep_reward_sum (q : List Transition) (γ : ℚ) (h : q ≠ []) :
    (preprocess_nstep q γ).map (fun p => p.2.2.1) =
      some (∑ i in Finset.range q.length, γ ^ i * (q.getD i default).reward) := by
  rw [preprocess_nstep_eq q γ h, walkDiscount_eq_sum]
  rfl

/-- Witness for `C2` (amended) on a concrete window. -/
theorem preprocess_nstep_reward_sum_witness :
    ([⟨0, 0, 1, 0, false⟩, ⟨0, 0, 2, 0, false⟩] : List Transition) ≠ [] ∧
    (preprocess_nstep [⟨0, 0, 1, 0, false⟩, ⟨0, 0, 2, 0, false⟩] (1/2)).map
        (fun p => p.2.2.1) =
      some (∑ i in Finset.range 2, (1/2 : ℚ) ^ i *
        (([⟨0, 0, 1, 0, false⟩, ⟨0, 0, 2, 0, false⟩] : List Transition).getD
          i default).reward) := by
  refine ⟨by simp, ?_⟩
  have h := preprocess_nstep_reward_sum
    [⟨0, 0, 1, 0, false⟩, ⟨0, 0, 2, 0, false⟩] (1/2) (by simp)
  simpa using h

/-- Bootstrap target of `DQNLoss.__call__`:
`target_q = rewards + (1 - dones) * n_step_gamma * next_q` with
`n_step_gamma = gamma ** n_step`. -/
def dqn_target (γ : ℚ) (n_step : ℕ) (reward done next_q : ℚ) : ℚ :=
  reward + (1 - done) * γ ^ n_step * next_q

/-- Bootstrap target of `QRLoss.__call__`:
`target_z = rewards + (1 - dones) * n_step_gamma * next_z`, broadcast over the
quantile values of the selected next action. -/
def qr_target (γ : ℚ) (n_step : ℕ) (reward done : ℚ) (next_z : List ℚ) : List ℚ :=
  next_z.map (fun z => reward + (1 - done) * γ ^ n_step * z)

/-- Bootstrap target of `CategoricalLoss.__call__` before clamping:
`target_z = rewards + (1 - dones) * n_step_gamma * network.support`, broadcast
over the support atoms. -/
def categorical_target_z (γ : ℚ) (n_step : ℕ) (reward done : ℚ)
    (support : List ℚ) : List ℚ :=
  support.map (fun z => reward + (1 - done) * γ ^ n_step * z)

/-- `C4`: all three loss variants compute
`target = reward + (1 - done) * gamma^n_step * bootstrap`; with `done = 1`
the bootstrap term vanishes and the target is the reward alone. -/
theorem terminal_target_is_reward (γ : ℚ) (n : ℕ) (reward done next_q : ℚ)
    (next_z support : List ℚ) (hd : done = 1) :
    dqn_target γ n reward done next_q = reward ∧
    qr_target γ n reward done next_z = next_z.map (fun _ => reward) ∧
    categorical_target_z γ n reward done support =
      support.map (fun _ => reward) := by
  subst hd
  simp [dqn_target, qr_target, categorical_target_z]

/-- Witness for `C4` at concrete inputs with `done = 1`. -/
theorem terminal_target_is_reward_witness :
    (1 : ℚ) = 1 ∧
    (dqn_target (1/2) 3 7 1 5 = 7 ∧
      qr_target (1/2) 3 7 1 [1, 2] = [(1 : ℚ), 2].map (fun _ => (7 : ℚ)) ∧
      categorical_target_z (1/2) 3 7 1 [0, 4] =
        [(0 : ℚ), 4].map (fun _ => (7 : ℚ))) :=
  ⟨rfl, terminal_target_is_reward (1/2) 3 7 1 5 [1, 2] [0, 4] rfl⟩

/-- The update-progress counters touched by the gated update block of
`DQNBaseAgent.train`: `self.update_step` and the number of
`decay_epsilon()` calls made so far. -/
structure AgentUpdateState where
  update_step : ℕ
  eps_decay_count : ℕ
  deriving Repr, DecidableEq

/-- Embedding of the per-step update gating in `DQNBaseAgent.train`:
`if len(self.replay_buffer) >= update_starting_point:` then
`if step % train_freq == 0:` sample, `update_model`, increment
`self.update_step`, and call `decay_epsilon()` once. -/
def train_update_block (update_starting_point train_freq buffer_len step : ℕ)
    (s : AgentUpdateState) : AgentUpdateState :=
  if update_starting_point ≤ buffer_len then
    if step % train_freq = 0 then
      { update_step := s.update_step + 1, eps_decay_count := s.eps_decay_count + 1 }
    else s
  else s

/-- `C6`: an update fires exactly when the buffer has reached the warm-up
threshold and the step counter is a multiple of `train_freq`; epsilon decays
exactly once per fired update and never otherwise. -/
theorem update_gating (usp freq blen step : ℕ) (s : AgentUpdateState) :
    (train_update_block usp freq blen step s).update_step =
      s.update_step + (if usp ≤ blen ∧ step % freq = 0 then 1 else 0) ∧
    (train_update_block usp freq blen step s).eps_decay_count =
      s.eps_decay_count + (if usp ≤ blen ∧ step % freq = 0 then 1 else 0) := by
  unfold train_update_block
  split_ifs with h1 h2 <;> simp_all

/-- Embedding of `QRLoss.quantile_huber_loss(x, k)`:
`torch.where(x.abs() < k, 0.5 * x.pow(2), k * (x.abs() - 0.5 * k))`. -/
def quantile_huber_loss (x : ℚ) (k : ℚ) : ℚ :=
  if |x| < k then 0.5 * x ^ 2 else k * (|x| - 0.5 * k)

/-- Counterexample to `C8`: at `x = 1` (so `|x| >= 1`, the non-quadratic
branch) the loss value `|x| - 0.5 = 0.5` still equals `0.5 * x^2`, so the loss
does not equal `0.5 * x^2` ONLY when `|x| < 1`. -/
theorem quantile_huber_loss_boundary_cex :
    quantile_huber_loss 1 1 = 0.5 * 1 ^ 2 ∧ ¬(|(1 : ℚ)| < 1) := by
  constructor
  · norm_num [quantile_huber_loss]
  · norm_num

/-- `C8` (amended): with `k = 1` the quantile Huber loss is non-negative for
every input, equals `0.5 * x^2` exactly when `|x| ≤ 1` (the two branches
coincide on the boundary `|x| = 1`), and equals `|x| - 0.5` for `|x| ≥ 1`. -/
theorem quantile_huber_loss_props (x : ℚ) :
    0 ≤ quantile_huber_loss x 1 ∧
    (quantile_huber_loss x 1 = 0.5 * x ^ 2 ↔ |x| ≤ 1) ∧
    (1 ≤ |x| → quantile_huber_loss x 1 = |x| - 0.5) := by
  unfold quantile_huber_loss
  rcases lt_or_le |x| 1 with h | h
  · rw [if_pos h]
    exact ⟨by positivity, ⟨fun _ => le_of_lt h, fun _ => rfl⟩,
      fun h1 => absurd h (not_lt.mpr h1)⟩
  · rw [if_neg (not_lt.mpr h)]
    refine ⟨by nlinarith, ⟨?_, ?_⟩, by intro _; ring⟩
    · intro heq
      nlinarith [sq_abs x, sq_nonneg (|x| - 1)]
    · intro hle
      have hx1 : |x| = 1 := le_antisymm hle h
      have hsq : x ^ 2 = 1 := by rw [← sq_abs, hx1]; norm_num
      rw [hx1, hsq]; norm_num

/-- Witness for `C8` (amended) at `x = 2`. -/
theorem quantile_huber_loss_props_witness :
    0 ≤ quantile_huber_loss 2 1 ∧ quantile_huber_loss 2 1 = |(2 : ℚ)| - 0.5 :=
  ⟨(quantile_huber_loss_props 2).1, (quantile_huber_loss_props 2).2.2 (by norm_num)⟩

/-- One iteration of the `soft_update` loop: for the current zipped index `i`,
`target_param.data.copy_(param.data * tau + target_param.data * (1.0 - tau))`;
only the target parameter list is written. -/
def sync_loop_body (tau : ℚ) (s : List ℚ × List ℚ) (i : ℕ) : List ℚ × List ℚ :=
  (s.1, s.2.set i (s.1.getD i 0 * tau + s.2.getD i 0 * (1 - tau)))

/-- Embedding of `soft_update(network, target_network, tau)`: iterate over the
zipped parameter lists (`zip` stops at the shorter list) updating the target
parameters in place; returns the final (live, target) parameter lists. -/
def soft_update (network target_network : List ℚ) (tau : ℚ) :
    List ℚ × List ℚ :=
  (List.range (min network.length target_network.length)).foldl
    (sync_loop_body tau) (network, target_network)

/-- One iteration of the `hard_update` loop:
`target_param.data.copy_(param.data)`. -/
def hard_loop_body (s : List ℚ × List ℚ) (i : ℕ) : List ℚ × List ℚ :=
  (s.1, s.2.set i (s.1.getD i 0))

/-- Embedding of `hard_update(network, target_network)`. -/
def hard_update (network target_network : List ℚ) : List ℚ × List ℚ :=
  (List.range (min network.length target_network.length)).foldl
    hard_loop_body (network, target_network)

lemma foldl_sync_fst (τ : ℚ) (l : List ℕ) (s : List ℚ × List ℚ) :
    (l.foldl (sync_loop_body τ) s).1 = s.1 := by
  induction l generalizing s with
  | nil => rfl
  | cons i is ih => rw [List.foldl_cons, ih]; rfl

lemma foldl_hard_fst (l : List ℕ) (s : List ℚ × List ℚ) :
    (l.foldl hard_loop_body s).1 = s.1 := by
  induction l generalizing s with
  | nil => rfl
  | cons i is ih => rw [List.foldl_cons, ih]; rfl

lemma foldl_sync_snd_length (τ : ℚ) (l : List ℕ) (s : List ℚ × List ℚ) :
    (l.foldl (sync_loop_body τ) s).2.length = s.2.length := by
  induction l generalizing s with
  | nil => rfl
  | cons i is ih =>
    rw [List.foldl_cons, ih]
    simp [sync_loop_body]

lemma soft_run_getD (net tgt : List ℚ) (τ : ℚ) : ∀ (k : ℕ),
    k ≤ min net.length tgt.length → ∀ (i : ℕ),
    (((List.range k).foldl (sync_loop_body τ) (net, tgt)).2).getD i 0 =
      if i < k then net.getD i 0 * τ + tgt.getD i 0 * (1 - τ)
      else tgt.getD i 0 := by
  intro k
  induction k with
  | zero => intro _ i; simp
  | succ k ih =>
    intro hk i
    rw [List.range_succ, List.foldl_append, List.foldl_cons, List.foldl_nil]
    have hk' : k ≤ min net.length tgt.length := Nat.le_of_succ_le hk
    have h1 : ((List.range k).foldl (sync_loop_body τ) (net, tgt)).1 = net :=
      foldl_sync_fst τ _ _
    have hlen : ((List.range k).foldl (sync_loop_body τ) (net, tgt)).2.length
        = tgt.length := foldl_sync_snd_length τ _ _
    have hkd : ((List.range k).foldl (sync_loop_body τ) (net, tgt)).2.getD k 0
        = tgt.getD k 0 := by
      rw [ih hk' k]; simp
    simp only [sync_loop_body, h1, hkd]
    by_cases hik : i = k
    · subst hik
      have hilen : i < ((List.range i).foldl (sync_loop_body τ) (net, tgt)).2.length := by
        rw [hlen]; omega
      rw [List.getD_eq_getElem?_getD, List.getElem?_set_eq_of_lt _ hilen]
      simp [Nat.lt_succ_self]
    · rw [List.getD_eq_getElem?_getD, List.getElem?_set_ne (fun hne => hik hne.symm),
        ← List.getD_eq_getElem?_getD, ih hk' i]
      by_cases hik2 : i < k
      · rw [if_pos hik2, if_pos (by omega)]
      · rw [if_neg hik2, if_neg (by omega)]

lemma sync_body_one : sync_loop_body 1 = hard_loop_body := by
  funext s i
  simp [sync_loop_body, hard_loop_body]

/-- `C7`: for aligned equal-length parameter lists, `soft_update` sets every
target parameter to `tau * live + (1 - tau) * target`, and `soft_update` with
`tau = 1` produces exactly the state `hard_update` produces. -/
theorem soft_update_polyak (network target_network : List ℚ) (τ : ℚ)
    (h : network.length = target_network.length) :
    (∀ i, i < target_network.length →
      ((soft_update network target_network τ).2).getD i 0 =
        τ * network.getD i 0 + (1 - τ) * target_network.getD i 0) ∧
    soft_update network target_network 1 = hard_update network target_network := by
  constructor
  · intro i hi
    unfold soft_update
    rw [soft_run_getD network target_network τ _ (le_refl _) i,
      if_pos (by omega)]
    ring
  · unfold soft_update hard_update
    rw [sync_body_one]

/-- Witness for `C7` on concrete parameter lists. -/
theorem soft_update_polyak_witness :
    ([(2 : ℚ), 4].length = [(10 : ℚ), 20].length) ∧
    ((∀ i, i < [(10 : ℚ), 20].length →
      ((soft_update [2, 4] [10, 20] (1/2)).2).getD i 0 =
        (1/2) * ([(2 : ℚ), 4].getD i 0) +
          (1 - 1/2) * ([(10 : ℚ), 20].getD i 0)) ∧
    soft_update [2, 4] [10, 20] 1 = hard_update [2, 4] [10, 20]) :=
  ⟨rfl, soft_update_polyak [2, 4] [10, 20] (1/2) rfl⟩

/-- `C9`: both `soft_update` and `hard_update` mutate only the target
network's parameters; the live network's parameter list is returned
unchanged. -/
theorem sync_updates_frame (network target_network : List ℚ) (τ : ℚ) :
    (soft_update network target_network τ).1 = network ∧
    (hard_update network target_network).1 = network :=
  ⟨foldl_sync_fst τ _ _, foldl_hard_fst _ _⟩

/-- Append to `transition_queue`, a `deque(maxlen=n_step)`: when the queue is
already at capacity the oldest element is evicted by the append. -/
def dequeAppend (n : ℕ) (q : List Transition) (t : Transition) :
    List Transition :=
  if q.length < n then q ++ [t] else q.tail ++ [t]

/-- One environment step of the n-step branch of `DQNBaseAgent.train`:
append the new transition to `transition_queue`, and whenever
`len(self.transition_queue) == n_step`, store
`preprocess_nstep(self.transition_queue, gamma)` into the replay buffer.
State: (transition queue, list of stored aggregated transitions). -/
def nstepLoopStep (n : ℕ) (γ : ℚ)
    (s : List Transition × List (Option (Int × Int × ℚ × Int × Bool)))
    (t : Transition) :
    List Transition × List (Option (Int × Int × ℚ × Int × Bool)) :=
  let q := dequeAppend n s.1 t
  if q.length = n then (q, s.2 ++ [preprocess_nstep q γ]) else (q, s.2)

/-- Run the n-step branch of the training loop over a whole trace of
transitions (episodes concatenated: the queue is created once in `__init__`
and never cleared, so it persists across `env.reset` boundaries). -/
def nstepRun (n : ℕ) (γ : ℚ) (ts : List Transition) :
    List Transition × List (Option (Int × Int × ℚ × Int × Bool)) :=
  ts.foldl (nstepLoopStep n γ) ([], [])

lemma nstepRun_append (n : ℕ) (γ : ℚ) (ts : List Transition) (t : Transition) :
    nstepRun n γ (ts ++ [t]) = nstepLoopStep n γ (nstepRun n γ ts) t := by
  simp [nstepRun]

lemma nstepRun_eq (n : ℕ) (γ : ℚ) (hn : 1 ≤ n) (ts : List Transition) :
    nstepRun n γ ts = (ts.drop (ts.length - n),
      (List.range (ts.length + 1 - n)).map
        (fun i => preprocess_nstep ((ts.drop i).take n) γ)) := by
  induction ts using List.reverseRecOn with
  | nil => simp [nstepRun, Nat.sub_eq_zero_of_le hn]
  | append_singleton ts t ih =>
    rw [nstepRun_append, ih]
    rcases Nat.lt_or_ge ts.length n with hL | hL
    · have hdrop0 : ts.length - n = 0 := Nat.sub_eq_zero_of_le (le_of_lt hL)
      have hq : dequeAppend n (ts.drop (ts.length - n)) t = ts ++ [t] := by
        rw [hdrop0, List.drop_zero]
        unfold dequeAppend
        rw [if_pos hL]
      rcases Nat.lt_or_ge (ts.length + 1) n with hL1 | hL1
      · simp only [nstepLoopStep, hq]
        rw [if_neg (by simp; omega)]
        have h1 : ts.length + 1 - n = 0 := by omega
        have h2 : (ts ++ [t]).length + 1 - n = 0 := by simp; omega
        have h3 : (ts ++ [t]).length - n = 0 := by simp; omega
        rw [h1, h2, h3]
        simp
      · have hEq : ts.length + 1 = n := by omega
        simp only [nstepLoopStep, hq]
        rw [if_pos (by simp; omega)]
        have h1 : ts.length + 1 - n = 0 := by omega
        have h2 : (ts ++ [t]).length + 1 - n = 1 := by simp; omega
        have h3 : (ts ++ [t]).length - n = 0 := by simp; omega
        rw [h1, h2, h3]
        have h4 : (ts ++ [t]).take n = ts ++ [t] :=
          List.take_of_length_le (by simp; omega)
        simp [List.range_succ, h4]
    · have hqlen : (ts.drop (ts.length - n)).length = n := by
        rw [List.length_drop]
        omega
      have hq : dequeAppend n (ts.drop (ts.length - n)) t =
          (ts ++ [t]).drop (ts.length + 1 - n) := by
        unfold dequeAppend
        rw [if_neg (by rw [hqlen]; exact lt_irrefl n)]
        rw [List.tail_drop,
          List.drop_append_of_le_length (by omega : ts.length + 1 - n ≤ ts.length)]
        have h5 : ts.length - n + 1 = ts.length + 1 - n := by omega
        rw [h5]
      simp only [nstepLoopStep, hq]
      have hql2 : ((ts ++ [t]).drop (ts.length + 1 - n)).length = n := by
        rw [List.length_drop]
        simp
        omega
      rw [if_pos hql2]
      have h6 : (ts ++ [t]).length - n = ts.length + 1 - n := by simp
      have h7 : (ts ++ [t]).length + 1 - n = (ts.length + 1 - n) + 1 := by
        simp
        omega
      rw [h6, h7, List.range_succ, List.map_append]
      refine congrArg (Prod.mk _) ?_
      refine congrArg₂ (fun a b => a ++ b) ?_ ?_
      · apply List.map_eq_map_iff.mpr
        intro i hi
        rw [List.mem_range] at hi
        rw [List.drop_append_of_le_length (by omega : i ≤ ts.length),
          List.take_append_of_le_length (by rw [List.length_drop]; omega)]
      · simp only [List.map_cons, List.map_nil]
        rw [List.take_of_length_le (le_of_eq hql2)]

/-- Counterexample to `C5`: with `n = 2`, after the window first fills at the
second step (one aggregate stored), the very next single push stores ANOTHER
aggregate — the deque's overflow keeps the queue at capacity, so the
`len == n` check passes on every subsequent step. -/
theorem nstep_window_slides_cex :
    (nstepRun 2 1 [⟨0, 0, 1, 0, false⟩, ⟨0, 0, 2, 0, false⟩]).2.length = 1 ∧
    (nstepRun 2 1
      [⟨0, 0, 1, 0, false⟩, ⟨0, 0, 2, 0, false⟩, ⟨0, 0, 3, 0, false⟩]).2.length
      = 2 := by
  rw [nstepRun_eq 2 1 (by norm_num), nstepRun_eq 2 1 (by norm_num)]
  simp

/-- `C5` (amended): the n-step window behaves as a continuously sliding
window: over a trace of `L` pushed transitions, `L + 1 - n` aggregated
transitions are stored — after the window first reaches capacity, one
aggregate is stored on every subsequent step, not once per `n` new pushes. -/
theorem nstep_aggregate_count (n : ℕ) (γ : ℚ) (ts : List Transition)
    (hn : 1 ≤ n) :
    (nstepRun n γ ts).2.length = ts.length + 1 - n := by
  rw [nstepRun_eq n γ hn ts]
  simp

/-- Witness for `C5` (amended) on a concrete three-step trace. -/
theorem nstep_aggregate_count_witness :
    1 ≤ 2 ∧
    (nstepRun 2 1
        ([⟨0, 0, 5, 0, false⟩, ⟨0, 0, 6, 0, true⟩, ⟨0, 0, 7, 0, false⟩] :
          List Transition)).2.length =
      ([⟨0, 0, 5, 0, false⟩, ⟨0, 0, 6, 0, true⟩, ⟨0, 0, 7, 0, false⟩] :
        List Transition).length + 1 - 2 :=
  ⟨by norm_num, nstep_aggregate_count 2 1 _ (by norm_num)⟩

/-- `C10`: the transition queue is never cleared by `train` — not at episode
boundaries and not after an aggregate is stored. After processing any trace
(episodes concatenated) the queue holds exactly the last `min(L, n)`
transitions of the trace, so once it reaches length `n` it stays full; and the
stored aggregates are precisely `preprocess_nstep` applied to EVERY contiguous
length-`n` window of the trace, regardless of where `done = true` transitions
sit — so an aggregate may combine transitions of two consecutive episodes with
a terminal transition at a non-final window position. -/
theorem transition_queue_persists (n : ℕ) (γ : ℚ) (ts : List Transition)
    (hn : 1 ≤ n) :
    (nstepRun n γ ts).1 = ts.drop (ts.length - n) ∧
    (nstepRun n γ ts).2 = (List.range (ts.length + 1 - n)).map
      (fun i => preprocess_nstep ((ts.drop i).take n) γ) := by
  rw [nstepRun_eq n γ hn ts]
  exact ⟨rfl, rfl⟩

/-- Witness for `C10` on a trace whose first transition is terminal
(`done = true` at a non-final window position). -/
theorem transition_queue_persists_witness :
    1 ≤ 2 ∧
    ((nstepRun 2 (1/2)
        ([⟨0, 0, 1, 0, true⟩, ⟨5, 1, 2, 6, false⟩] : List Transition)).1 =
      ([⟨0, 0, 1, 0, true⟩, ⟨5, 1, 2, 6, false⟩] : List Transition).drop
        (([⟨0, 0, 1, 0, true⟩, ⟨5, 1, 2, 6, false⟩] :
          List Transition).length - 2) ∧
    (nstepRun 2 (1/2)
        ([⟨0, 0, 1, 0, true⟩, ⟨5, 1, 2, 6, false⟩] : List Transition)).2 =
      (List.range (([⟨0, 0, 1, 0, true⟩, ⟨5, 1, 2, 6, false⟩] :
          List Transition).length + 1 - 2)).map
        (fun i => preprocess_nstep
          ((([⟨0, 0, 1, 0, true⟩, ⟨5, 1, 2, 6, false⟩] :
            List Transition).drop i).take 2) (1/2))) :=
  ⟨by norm_num, transition_queue_persists 2 (1/2) _ (by norm_num)⟩

/-- Embedding of `CategoricalLoss.dist_projection` for one batch row (the
`offset` tensor only shifts each row to its own disjoint block of the
flattened output, so rows are independent). For each atom, with
`b = (target_z - v_min) / delta_z`, `l = floor(b)`, `u = ceil(b)`, the two
`index_add_` calls add `next_z * (u - b)` at index `l` and `next_z * (b - l)`
at index `u`; contributions to the same index accumulate. The result is the
projected mass at each (integer) support index. -/
def dist_projection (v_min delta_z : ℚ) (next_z target_z : List ℚ) : ℤ → ℚ :=
  (next_z.zip target_z).foldl
    (fun proj p =>
      let b : ℚ := (p.2 - v_min) / delta_z
      let l : ℤ := ⌊b⌋
      let u : ℤ := ⌈b⌉
      fun i => proj i + (if i = l then p.1 * ((u : ℚ) - b) else 0)
        + (if i = u then p.1 * (b - (l : ℚ)) else 0))
    (fun _ => 0)

/-- Total projected mass over the `num_atoms` support bins of one row. -/
def projSum (num_atoms : ℕ) (proj : ℤ → ℚ) : ℚ :=
  ∑ i in Finset.range num_atoms, proj (i : ℤ)

/-- `C1` fails on the code: with `v_min = 0`, `delta_z = 1`, `num_atoms = 2`,
a valid input distribution `next_z = [1, 0]` and clamped targets
`target_z = [0, 0]` lying exactly on the grid (`b = 0` an integer, `l = u`),
both projection weights `u - b` and `b - l` are `0`, so the projected row sums
to `0`, not `1`: the whole probability mass is lost. The code has no guard for
the `l = u` degenerate case. -/
theorem dist_projection_mass_lost :
    projSum 2 (dist_projection 0 1 [1, 0] [0, 0]) = 0 ∧
    ([(1 : ℚ), 0].sum = 1) := by
  constructor
  · norm_num [projSum, dist_projection, Finset.sum_range_succ]
  · norm_num

end RLcycle
